import Mathlib

/-!
Verification of the naive-bayes-text-classification repository.

The development shallowly embeds the C++ sources:
* `std::unordered_map` contents are modelled as association lists
  (`List (α × β)`) in insertion order; `m[k] = v` is `mset`,
  `m[k] += v` is `maddN`, lookup is `mget`.
* `size_t` values are `Nat`; `double` values computed by exact rational
  arithmetic are `ℚ`; calls to `std::log` are an abstract function
  `lg : ℚ → R` into a linear ordered field, instantiated with `Real.log`
  composed with the cast where the logarithm's properties matter.
* Fallible C++ code (out-of-bounds accesses, reads of uninitialised
  memory) is modelled with `Option`, `none` marking undefined behaviour.
-/

namespace NB

/-! ## Association-list maps (contents of `std::unordered_map`) -/

variable {α : Type} {β : Type} [DecidableEq α]

/-- Lookup of a key, mirroring `unordered_map::find` / `::at`. -/
def mget : List (α × β) → α → Option β
  | [], _ => none
  | p :: t, k => if p.1 = k then some p.2 else mget t k

/-- `m[k] = v`: replace the mapped value if the key is present, else append
a fresh entry (insertion order of `unordered_map` is irrelevant to content). -/
def mset : List (α × β) → α → β → List (α × β)
  | [], k, v => [(k, v)]
  | p :: t, k, v => if p.1 = k then (k, v) :: t else p :: mset t k v

/-- `m[k] += v` on a counter map: a missing key value-initialises to `0`. -/
def maddN (m : List (α × Nat)) (k : α) (v : Nat) : List (α × Nat) :=
  mset m k ((mget m k).getD 0 + v)

/-- Keys of a map in iteration order. -/
def mkeys (m : List (α × β)) : List α := m.map Prod.fst

/-! ## Tokenizer: `Tokenizer::remove_punctuation` (src/unnamed/part_001)

The C++ routine first replaces `"`, `,`, `<`, `>` by a quote placeholder
and erases all quotes; if the result is empty it returns it.  Otherwise it
overwrites the leading run of characters satisfying
`c != quote && !isalnum(c)` with quotes, walking an index forward without a
bounds check; when every character of the string satisfies the predicate,
the index reaches `size()` where `result[i]` is the null terminator (which
also satisfies the predicate), the loop writes to `result[size()]` and then
reads `result[size()+1]` — out of bounds.  That escape is modelled by
`none`.  The trailing run is then overwritten the same way from the back
(safe once the first loop terminated, since a stopping character is
alphanumeric), and quotes are erased again. -/

/-- The quote placeholder character `'` used by `remove_punctuation`. -/
def quoteChar : Char := Char.ofNat 39

/-- Replacement of `"`, `,`, `<`, `>` by the quote placeholder
(the four `std::replace` calls). -/
def replPunct (c : Char) : Char :=
  if c = Char.ofNat 34 ∨ c = ',' ∨ c = '<' ∨ c = '>' then quoteChar else c

/-- The lambda `to_remove`: not the quote placeholder and not alphanumeric. -/
def toRemove (c : Char) : Bool := c ≠ quoteChar && !c.isAlphanum

/-- The forward trimming loop: overwrite the leading `toRemove` run with
quote placeholders; reaching the end of the string means the C++ loop
walks past the terminator (undefined behaviour), modelled as `none`. -/
def trimLeftLoop : List Char → Option (List Char)
  | [] => none
  | c :: t =>
    if toRemove c then (trimLeftLoop t).map (fun r => quoteChar :: r)
    else some (c :: t)

/-- Overwrite the leading `toRemove` run with quote placeholders, stopping
at the first other character.  Used (on the reversed string) for the
backward trimming loop, which is reachable only after the forward loop
stopped at an alphanumeric character, so it never underflows. -/
def markRun : List Char → List Char
  | [] => []
  | c :: t => if toRemove c then quoteChar :: markRun t else c :: t

/-- `Tokenizer::remove_punctuation`.  `none` models the out-of-bounds
escape of the forward trimming loop. -/
def remove_punctuation (s : String) : Option String :=
  let r := (s.data.map replPunct).filter (fun c => c ≠ quoteChar)
  if r = [] then some (String.mk r)
  else
    (trimLeftLoop r).map (fun r1 =>
      String.mk (((markRun r1.reverse).reverse).filter (fun c => c ≠ quoteChar)))

/-! ## Naive Bayes classifier (src/include/naive_bayes_classifier.hpp)

`NaiveBayesClassifier<Word, Class>` is instantiated in the repository with
`Word = std::string` and string-serialised class labels, so the embedding
fixes both to `String`. -/

/-- Word type of documents (`Word` template parameter). -/
abbrev Term := String

/-- Class type of documents (`Class` template parameter). -/
abbrev Label := String

/-- `sample<Word> = std::unordered_map<Word, size_t>`: contents of a
document sample in iteration order. -/
abbrev Sample := List (Term × Nat)

/-- `prior_t = std::unordered_map<Class, size_t>`. -/
abbrev ClsMap := List (Label × Nat)

/-- `likelihood_t = std::unordered_map<Word, std::unordered_map<Class, size_t>>`. -/
abbrev Lik := List (Term × ClsMap)

/-- Two-level lookup `m_likelihood.at(word).at(cls)` as an `Option`. -/
def mget2 (lik : Lik) (w : Term) (c : Label) : Option Nat :=
  (mget lik w).bind fun mc => mget mc c

/-- `laplace_smooth` (src/include/util.hpp): `(nom + alpha) / (denom + alpha * total_items)`,
with the `double` arithmetic idealised in `ℚ`. -/
def laplace_smooth (nom denom : ℚ) (total_items : Nat) (alpha : ℚ) : ℚ :=
  (nom + alpha) / (denom + alpha * (total_items : ℚ))

/-- State of a `NaiveBayesClassifier`, mirroring its data members. -/
structure NBC where
  dict_size : Nat
  class_vec : List Label
  class_term_counts : List Nat
  total_samples : Nat
  prior : ClsMap
  likelihood : Lik
deriving DecidableEq

/-- The default constructor leaves `m_dict_size` and `total_samples`
uninitialised (indeterminate `size_t` values, passed in here as explicit
garbage parameters) and the vectors/maps empty. -/
def NBC.init (gdict gtotal : Nat) : NBC :=
  ⟨gdict, [], [], gtotal, [], []⟩

/-- Prior loop of `fit`: `for (c : y_train) ++m_prior[c]`. -/
def priorOf (y : List Label) : ClsMap :=
  y.foldl (fun m c => maddN m c 1) []

/-- Inner mega-document loop of `fit` for one training pair:
`for (word, count) in smp: class_megadocs[cls][word] += count`. -/
def megaStep (m : List (Label × Sample)) (cls : Label) (s : Sample) :
    List (Label × Sample) :=
  s.foldl (fun m' wc => mset m' cls (maddN ((mget m' cls).getD []) wc.1 wc.2)) m

/-- Mega-document construction of `fit` over all training pairs. -/
def megadocsOf (x : List Sample) (y : List Label) : List (Label × Sample) :=
  (x.zip y).foldl (fun m p => megaStep m p.2 p.1) []

/-- Likelihood-transfer loop of `fit` for one mega-document:
`for (word, count) in smp: m_likelihood[word][cls] = count`. -/
def likStep (lik : Lik) (cls : Label) (s : Sample) : Lik :=
  s.foldl (fun lik' wc => mset lik' wc.1 (mset ((mget lik' wc.1).getD []) cls wc.2)) lik

/-- Likelihood-transfer loop of `fit` over all mega-documents. -/
def likelihoodOf (mega : List (Label × Sample)) : Lik :=
  mega.foldl (fun lik p => likStep lik p.1 p.2) []

/-- `NaiveBayesClassifier::fit`: overwrites `m_prior` and `m_likelihood`
only; `m_dict_size`, `m_class_vec`, `m_class_term_counts` and
`total_samples` keep whatever values the object already had. -/
def NBC.fit (clf : NBC) (x : List Sample) (y : List Label) : NBC :=
  { clf with prior := priorOf y, likelihood := likelihoodOf (megadocsOf x y) }

/-- `std::distance(begin, std::find(begin, end, c))`: index of the first
occurrence of `c`, or the length of the list when absent. -/
def posOf : List Label → Label → Nat
  | [], _ => 0
  | a :: t, c => if a = c then 0 else posOf t c + 1

/-- `m_class_term_counts[index] += count`; an index past the end of the
vector is the constructor's out-of-bounds write, modelled as `none`. -/
def bumpAt (l : List Nat) (i : Nat) (v : Nat) : Option (List Nat) :=
  if h : i < l.length then some (l.set i (l.get ⟨i, h⟩ + v)) else none

/-- Sum of the mapped values, mirroring the `std::accumulate` over the
prior that computes `total_samples`. -/
def msum (m : ClsMap) : Nat := (m.map Prod.snd).sum

/-- Class-term-count loop of the `(prior, likelihood)` constructor. -/
def classTermCountsOf (cvec : List Label) (lik : Lik) : Option (List Nat) :=
  lik.foldlM
    (fun acc wp => wp.2.foldlM (fun acc2 cp => bumpAt acc2 (posOf cvec cp.1) cp.2) acc)
    (List.replicate cvec.length 0)

/-- `m_dict_size`: size of the `std::set` of all likelihood keys. -/
def dictSizeOf (lik : Lik) : Nat := (lik.map Prod.fst).dedup.length

/-- The `(prior, likelihood)` constructor used by `operator>>`. -/
def mkNBC (prior : ClsMap) (lik : Lik) : Option NBC :=
  (classTermCountsOf (mkeys prior) lik).map fun counts =>
    ⟨dictSizeOf lik, mkeys prior, counts, msum prior, prior, lik⟩

/-- The probability fed to `std::log` for one `(term, class)` pair inside
`predict`: `laplace_smooth(nom, denom, m_dict_size, 1)`, where `nom` is the
stored likelihood count when the `(word, cls)` entry exists and `0`
otherwise, and `denom` is the class term count. -/
def termProb (clf : NBC) (cls : Label) (cls_count : Nat) (w : Term) : ℚ :=
  laplace_smooth (((mget2 clf.likelihood w cls).getD 0 : Nat) : ℚ)
    ((cls_count : Nat) : ℚ) clf.dict_size 1

variable {R : Type} [LinearOrderedField R]

/-- `posterior[cls] += v` on the score map (`double` scores live in the
linear ordered field `R`; a missing key value-initialises to `0.0`). -/
def maddF (m : List (Label × R)) (k : Label) (v : R) : List (Label × R) :=
  mset m k ((mget m k).getD 0 + v)

/-- The posterior map computed by single-sample `predict`.  `lg` abstracts
`std::log` on exact rational intermediate values.  The first fold is the
prior-initialisation loop; the second is the loop over `m_class_vec`
indexing `m_class_term_counts` (in every reachable state the two vectors
have equal length — both empty after `fit` on a fresh object, parallel by
construction in the `(prior, likelihood)` constructor — so the zip is the
C++ index loop). -/
def predictScores (lg : ℚ → R) (clf : NBC) (s : Sample) : List (Label × R) :=
  let init : List (Label × R) :=
    clf.prior.foldl
      (fun post p => mset post p.1 (lg ((p.2 : ℚ) / (clf.total_samples : ℚ)))) []
  (clf.class_vec.zip clf.class_term_counts).foldl
    (fun post ci =>
      s.foldl
        (fun post' wc => maddF post' ci.1 ((wc.2 : R) * lg (termProb clf ci.1 ci.2 wc.1)))
        post)
    init

/-- `std::max_element` with the strict `<` comparator on the mapped score:
returns the first element whose score no later element strictly exceeds;
`none` on an empty map (where the C++ would dereference `end()`). -/
def maxElement : List (Label × R) → Option (Label × R)
  | [] => none
  | h :: t => some (t.foldl (fun best p => if best.2 < p.2 then p else best) h)

/-- Single-sample `NaiveBayesClassifier::predict`. -/
def NBC.predictOne (lg : ℚ → R) (clf : NBC) (s : Sample) : Option Label :=
  (maxElement (predictScores lg clf s)).map Prod.fst

/-! ### Specification-side counting functions -/

/-- Number of occurrences of term `w` recorded in one sample. -/
def sampleCount (s : Sample) (w : Term) : Nat :=
  ((s.filter fun p => decide (p.1 = w)).map Prod.snd).sum

/-- `count(t, c)`: the sum of `w`'s counts over all training documents of
class `c`. -/
def termClassCount (x : List Sample) (y : List Label) (w : Term) (c : Label) : Nat :=
  (((x.zip y).filter fun p => decide (p.2 = c)).map fun p => sampleCount p.1 w).sum

/-- Whether term `w` has an entry in sample `s`. -/
def occursIn (s : Sample) (w : Term) : Bool :=
  s.any fun p => decide (p.1 = w)

/-- Whether term `w` has an entry in some training document of class `c`. -/
def occursCls (x : List Sample) (y : List Label) (w : Term) (c : Label) : Bool :=
  (x.zip y).any fun p => decide (p.2 = c) && occursIn p.1 w

/-- Total number of term tokens recorded for class `c` in a likelihood
table: the quantity accumulated into `m_class_term_counts` for `c`. -/
def classTotal (lik : Lik) (c : Label) : Nat :=
  (lik.map fun wp => (mget wp.2 c).getD 0).sum

/-! ### Content of the tables built by `fit` -/

/-- Lookup of term `w` inside the mega-document of class `c`. -/
def mgetMega (m : List (Label × Sample)) (c : Label) (w : Term) : Option Nat :=
  (mget m c).bind fun s => mget s w

/-! ### Prior counts (C8) -/

/-! ### Claim C9: `remove_punctuation` on empty and all-punctuation tokens -/

/-! ### Claim C3: substitute probability for a term unseen in a class -/

/-! ### Claim C2: the scores computed by `predict` after a plain `fit` -/

/-! ### Model persistence: `operator<<` / `operator>>` (C4)

The writer emits one `"<class> <count>"` line per prior entry, a blank
line, then one `"<word> <class> <count>"` line per likelihood entry.  The
reader `getline`s prior lines until the blank line, parses each line with
`>>` (whitespace-separated fields, decimal counts), reads likelihood lines
until end of stream the same way, and hands the two maps to the
`(prior, likelihood)` constructor.  Parsing is modelled for the well-formed
lines the writer emits; a malformed line is `none`. -/

/-- Splitting a line into whitespace-separated fields (the effect of
repeated `>>` extractions on one `std::stringstream`). -/
def fieldsAux : List Char → List Char → List (List Char)
  | [], acc => if acc.isEmpty then [] else [acc.reverse]
  | c :: t, acc =>
    if c.isWhitespace then
      (if acc.isEmpty then fieldsAux t [] else acc.reverse :: fieldsAux t [])
    else fieldsAux t (c :: acc)

/-- Whitespace-separated fields of a line. -/
def fields (s : String) : List String := (fieldsAux s.data []).map String.mk

/-- Decimal parse of one `size_t` field. -/
def parseNat (s : String) : Option Nat :=
  if s.data ≠ [] ∧ s.data.all Char.isDigit then
    some (s.data.foldl (fun a c => a * 10 + (c.toNat - 48)) 0)
  else none

/-- Parse one `"<class> <count>"` prior line. -/
def parsePriorLine (l : String) : Option (Label × Nat) :=
  match fields l with
  | [c, n] => (parseNat n).map fun k => (c, k)
  | _ => none

/-- Parse one `"<word> <class> <count>"` likelihood line. -/
def parseLikLine (l : String) : Option (Term × Label × Nat) :=
  match fields l with
  | [w, c, n] => (parseNat n).map fun k => (w, c, k)
  | _ => none

/-- `operator<<`: the lines written for a classifier. -/
def writeNBC (clf : NBC) : List String :=
  (clf.prior.map fun p => p.1 ++ " " ++ toString p.2) ++ [""] ++
    (clf.likelihood.map fun wp =>
      wp.2.map fun cp => wp.1 ++ " " ++ cp.1 ++ " " ++ toString cp.2).flatten

/-- `operator>>`: read prior lines up to the blank separator, then
likelihood lines, and construct the classifier with the
`(prior, likelihood)` constructor. -/
def readNBC (lines : List String) : Option NBC := do
  let priorLines := lines.takeWhile fun l => l ≠ ""
  let likLines := (lines.dropWhile fun l => l ≠ "").drop 1
  let prior ← priorLines.foldlM
    (fun m l => (parsePriorLine l).map fun p => mset m p.1 p.2) []
  let lik ← likLines.foldlM
    (fun m l => (parseLikLine l).map fun p =>
      mset m p.1 (mset ((mget m p.1).getD []) p.2.1 p.2.2)) []
  mkNBC prior lik

/-- `std::log` on an exact rational intermediate value. -/
noncomputable def logQ : ℚ → ℝ := fun q => Real.log (q : ℝ)

/-! ### Mutual-information feature selection (src/unnamed/part_006)

`mutual_info` builds, for every word of the training dictionary, a 2×2
contingency table and sums `count * (log2(total*count) - log2(row*col)) / total`
over the non-zero cells (`std::log2` on `size_t` values is the abstract
`lg2 : Nat → R`).  `get_top_words_per_class` heap-selects the `top_k`
entries of largest mutual information; `std::make_heap`/`std::pop_heap`
with the `<`-on-second comparator deliver the entries in non-increasing
value order, i.e. the traversal of the value-sorted vector, so the heap is
modelled by sorting; popping from an exhausted vector is the
`front()`-on-empty undefined behaviour, modelled as `none`. -/

/-- Lexicographic byte comparison of strings: `std::string::operator<`. -/
def strLtB : List Char → List Char → Bool
  | [], [] => false
  | [], _ :: _ => true
  | _ :: _, [] => false
  | a :: as, b :: bs =>
    if a.toNat < b.toNat then true
    else if b.toNat < a.toNat then false
    else strLtB as bs

/-- The non-strict order induced by `strLtB`. -/
def strLeB (a b : Term) : Bool := !strLtB b.data a.data

/-- The `std::set` dictionary of all words of the training set (sorted,
distinct). -/
def dictOf (x : List Sample) : List Term :=
  List.insertionSort (fun a b => strLeB a b = true)
    ((x.map fun s => s.map Prod.fst).flatten.dedup)

/-- `word_docs[word]`: document indices, one per `(word, count)` entry. -/
def wordDocs (x : List Sample) (w : Term) : List Nat :=
  (x.enum.map fun p => (p.2.filter fun q => decide (q.1 = w)).map fun _ => p.1).flatten

/-- Contingency count `count[1][1]`: entries of `word_docs[w]` whose
document has the target class (documents are indexed within bounds when
`x` and `y` have equal length). -/
def count11 (x : List Sample) (y : List Label) (target : Label) (w : Term) : Nat :=
  ((wordDocs x w).filter fun i => decide (y.get? i = some target)).length

/-- Contingency count `count[1][0]`. -/
def count10 (x : List Sample) (y : List Label) (target : Label) (w : Term) : Nat :=
  ((wordDocs x w).filter fun i => !decide (y.get? i = some target)).length

/-- One cell's contribution to the mutual information; a zero cell is
skipped (`0·log 0 = 0` convention). -/
def miCell {R : Type} [LinearOrderedField R] (lg2 : Nat → R)
    (cnt row col total : Nat) : R :=
  if cnt = 0 then 0
  else (((cnt : R) * lg2 (total * cnt)) - ((cnt : R) * lg2 (row * col))) / (total : R)

/-- `mutual_info`: mutual information of every dictionary word with the
target class.  The subtractions computing the absent-row cells are `size_t`
subtractions, which coincide with truncated subtraction in the states the
program reaches (per-document word keys unique, equal-length inputs). -/
def mutual_info {R : Type} [LinearOrderedField R] (lg2 : Nat → R)
    (x : List Sample) (y : List Label) (target : Label) : List (Term × R) :=
  (dictOf x).map fun w =>
    let c11 := count11 x y target w
    let c10 := count10 x y target w
    let c01 := y.count target - c11
    let c00 := (x.length - y.count target) - c10
    let total := c00 + c01 + c10 + c11
    (w, miCell lg2 c00 (c00 + c01) (c00 + c10) total
      + miCell lg2 c01 (c00 + c01) (c01 + c11) total
      + miCell lg2 c10 (c10 + c11) (c00 + c10) total
      + miCell lg2 c11 (c10 + c11) (c01 + c11) total)

/-- The mutual-information vector in the order the max-heap pops it:
non-increasing by value. -/
def sortDesc {R : Type} [LinearOrderedField R] (v : List (Term × R)) :
    List (Term × R) :=
  List.insertionSort (fun p q => q.2 ≤ p.2) v

/-- The top-K loop: `top_k` iterations of
`push_back(front()); pop_heap(); pop_back()`; `front()` on an exhausted
vector is undefined behaviour, modelled as `none`. -/
def popTopK {R : Type} [LinearOrderedField R] :
    Nat → List (Term × R) → Option (List Term)
  | 0, _ => some []
  | _ + 1, [] => none
  | k + 1, h :: t => (popTopK k t).map fun ws => h.1 :: ws

/-- `get_top_words_per_class`. -/
def get_top_words_per_class {R : Type} [LinearOrderedField R] (lg2 : Nat → R)
    (x : List Sample) (y : List Label) (class_dict : List Label) (top_k : Nat) :
    Option (List (Label × List Term)) :=
  class_dict.foldlM
    (fun acc cls =>
      (popTopK top_k (sortDesc (mutual_info lg2 x y cls))).map fun ws =>
        mset acc cls ws)
    []

/-! ### `remove_unimportant_words` (src/unnamed/part_006) -/

/-- `std::binary_search` over the (sorted) top-word vector: midpoint
bisection; returns whether an element neither `<` nor `>` the probe was
found. -/
def bsearchList (l : List Term) (v : Term) : Bool :=
  if hl : l.length = 0 then false
  else
    match hm : l.get? (l.length / 2) with
    | none => false
    | some x =>
      if strLtB x.data v.data then bsearchList (l.drop (l.length / 2 + 1)) v
      else if strLtB v.data x.data then bsearchList (l.take (l.length / 2)) v
      else true
termination_by l.length
decreasing_by
  · simp only [List.length_drop]
    omega
  · simp only [List.length_take]
    omega

/-- `unordered_map::erase(key)`: drop the entry with the given key. -/
def eraseKey : Sample → Term → Sample
  | [], _ => []
  | p :: t, w => if p.1 = w then t else p :: eraseKey t w

/-- The per-document loop of `remove_unimportant_words`: snapshot the
document's words, then erase every word that binary search does not find
in the class's top-word vector. -/
def pruneDoc (top : List Term) (s : Sample) : Sample :=
  (s.map Prod.fst).foldl
    (fun s' w => if bsearchList top w then s' else eraseKey s' w) s

/-- `remove_unimportant_words`: for each `(class, top words)` pair, prune
every training document of that class in place; `y_train` is only read. -/
def remove_unimportant_words (x : List Sample) (y : List Label)
    (top : List (Label × List Term)) : List Sample × List Label :=
  top.foldl
    (fun acc p =>
      (List.zipWith (fun s c => if c = p.1 then pruneDoc p.2 s else s) acc.1 acc.2,
        acc.2))
    (x, y)

/-! ### Evaluation metrics (src/include/metrics.hpp) -/

/-- `precision<NoAvg>`: one pass over the paired labels builds the
diagonal map (`precision[y_pred[i]]++` when `y_true[i] == y_pred[i]`) and
the predicted-count map (`positive_count[y_pred[i]]++`), then each
diagonal entry is divided by its predicted count
(`positive_count.at(cls)`, defined for every diagonal key). -/
def precisionNoAvg (y_true y_pred : List Label) : List (Label × ℚ) :=
  let counts := (y_true.zip y_pred).foldl
    (fun (pr : List (Label × ℚ) × List (Label × Nat)) q =>
      (if q.1 = q.2 then maddF pr.1 q.2 1 else pr.1, maddN pr.2 q.2 1))
    ([], [])
  counts.1.map fun p => (p.1, p.2 / ((mget counts.2 p.1).getD 0 : ℚ))

/-- Diagonal count of class `c`: positions predicted `c` and correct. -/
def diagCount (l : List (Label × Label)) (c : Label) : Nat :=
  (l.filter fun q => decide (q.1 = q.2) && decide (q.2 = c)).length

/-- Predicted count of class `c`. -/
def predCount (l : List (Label × Label)) (c : Label) : Nat :=
  (l.filter fun q => decide (q.2 = c)).length

/-- `tp` accumulated by `precision<Micro>`. -/
def tpMicro (y_true y_pred : List Label) : Nat :=
  ((y_true.zip y_pred).filter fun q => decide (q.1 = q.2)).length

/-- `precision<Micro>`: `tp / y_true.size()`. -/
def precisionMicro (y_true y_pred : List Label) : ℚ :=
  (tpMicro y_true y_pred : ℚ) / (y_true.length : ℚ)

/-- `tp` accumulated by `recall<Micro>` (the same loop, written out in the
source a second time). -/
def tpMicroRec (y_true y_pred : List Label) : Nat :=
  ((y_true.zip y_pred).filter fun q => decide (q.1 = q.2)).length

/-- `recall<Micro>`: `tp / y_true.size()`. -/
def recallMicro (y_true y_pred : List Label) : ℚ :=
  (tpMicroRec y_true y_pred : ℚ) / (y_true.length : ℚ)

/-- `f_beta`: `(1+β²)·(p·r) / (β²·p + r)`; a zero denominator makes the
`double` quotient non-finite (`0/0` is NaN), modelled as `none`. -/
def f_beta (p r beta : ℚ) : Option ℚ :=
  if beta * beta * p + r = 0 then none
  else some ((1 + beta * beta) * (p * r) / (beta * beta * p + r))

/-- `f_score<Micro>`: `f_beta` of micro precision and micro recall. -/
def f_scoreMicro (y_true y_pred : List Label) : Option ℚ :=
  f_beta (precisionMicro y_true y_pred) (recallMicro y_true y_pred) 1

/-- Overall accuracy as the claim states it: matching positions over `N`. -/
def accuracy (y_true y_pred : List Label) : ℚ :=
  (((y_true.zip y_pred).countP fun q => decide (q.1 = q.2)) : ℚ) /
    (y_true.length : ℚ)


/-! ## Theorems -/

theorem mget_mset (m : List (α × β)) (k : α) (v : β) (k' : α) :
    mget (mset m k v) k' = if k = k' then some v else mget m k' := by
  induction m with
  | nil => by_cases h : k = k' <;> simp [mset, mget, h]
  | cons p t ih =>
    by_cases hp : p.1 = k
    · by_cases h : k = k' <;> simp [mset, mget, hp, h, hp.symm ▸ h]
    · simp only [mset, if_neg hp]
      by_cases h : p.1 = k'
      · have : ¬ k = k' := fun e => hp (e ▸ h)
        simp [mget, h, this]
      · simp [mget, h, ih]

theorem mget_maddN (m : List (α × Nat)) (k : α) (v : Nat) (k' : α) :
    mget (maddN m k v) k' =
      if k = k' then some ((mget m k').getD 0 + v) else mget m k' := by
  unfold maddN
  rw [mget_mset]
  by_cases h : k = k' <;> simp [h]

theorem mget_mem (m : List (α × β)) (k : α) (v : β) (h : mget m k = some v) :
    (k, v) ∈ m := by
  induction m with
  | nil => simp [mget] at h
  | cons p t ih =>
    obtain ⟨p1, p2⟩ := p
    by_cases hp : p1 = k
    · subst hp
      simp only [mget, if_pos rfl] at h
      obtain rfl : p2 = v := by injection h
      exact List.mem_cons_self _ _
    · simp only [mget, hp, if_false] at h
      exact List.mem_cons_of_mem _ (ih h)

theorem mem_mkeys_mset (m : List (α × β)) (k : α) (v : β) (k' : α)
    (h : k' ∈ mkeys (mset m k v)) : k' = k ∨ k' ∈ mkeys m := by
  induction m with
  | nil => simpa [mset, mkeys] using h
  | cons p t ih =>
    by_cases hp : p.1 = k
    · simp only [mset, if_pos hp, mkeys, List.map_cons, List.mem_cons] at h
      rcases h with h | h
      · exact Or.inl h
      · exact Or.inr (by simp [mkeys, List.mem_cons]; right; simpa [mkeys] using h)
    · simp only [mset, if_neg hp, mkeys, List.map_cons, List.mem_cons] at h
      rcases h with h | h
      · exact Or.inr (by simp [mkeys, h])
      · rcases ih h with h' | h'
        · exact Or.inl h'
        · exact Or.inr (by simp [mkeys] at h' ⊢; exact Or.inr h')

theorem mkeys_mset_nodup (m : List (α × β)) (k : α) (v : β)
    (h : (mkeys m).Nodup) : (mkeys (mset m k v)).Nodup := by
  induction m with
  | nil => simp [mset, mkeys]
  | cons p t ih =>
    simp only [mkeys, List.map_cons, List.nodup_cons] at h
    by_cases hp : p.1 = k
    · simp only [mset, if_pos hp, mkeys, List.map_cons, List.nodup_cons]
      exact ⟨hp ▸ h.1, h.2⟩
    · simp only [mset, if_neg hp, mkeys, List.map_cons, List.nodup_cons]
      refine ⟨fun hm => ?_, ih h.2⟩
      rcases mem_mkeys_mset t k v p.1 hm with h' | h'
      · exact hp h'
      · exact h.1 h'

theorem mget_eq_none {α β : Type} [DecidableEq α] :
    ∀ (m : List (α × β)) (k : α), k ∉ mkeys m → mget m k = none := by
  intro m
  induction m with
  | nil => intro k _; rfl
  | cons p t ih =>
    intro k h
    simp only [mkeys, List.map_cons, List.mem_cons, not_or] at h
    rw [mget, if_neg (fun e => h.1 e.symm)]
    exact ih k (by simpa [mkeys] using h.2)

theorem mem_mset {α β : Type} [DecidableEq α] (m : List (α × β)) (k : α) (v : β)
    (q : α × β) (h : q ∈ mset m k v) : q = (k, v) ∨ q ∈ m := by
  induction m with
  | nil => simpa [mset] using h
  | cons p t ih =>
    by_cases hp : p.1 = k
    · simp only [mset, if_pos hp, List.mem_cons] at h
      rcases h with h | h
      · exact Or.inl h
      · exact Or.inr (List.mem_cons_of_mem _ h)
    · simp only [mset, if_neg hp, List.mem_cons] at h
      rcases h with h | h
      · exact Or.inr (h ▸ List.mem_cons_self _ _)
      · rcases ih h with h' | h'
        · exact Or.inl h'
        · exact Or.inr (List.mem_cons_of_mem _ h')

theorem mget_getD_bind {α γ δ : Type} [DecidableEq α] [DecidableEq γ]
    (m : List (α × List (γ × δ))) (c : α) (w : γ) :
    mget ((mget m c).getD []) w = (mget m c).bind fun s => mget s w := by
  cases h : mget m c <;> simp [h, mget]

theorem sampleCount_eq_zero (s : Sample) (w : Term) (h : occursIn s w = false) :
    sampleCount s w = 0 := by
  unfold sampleCount
  have hf : s.filter (fun p => decide (p.1 = w)) = [] := by
    rw [List.filter_eq_nil_iff]
    intro p hp hd
    have ht : occursIn s w = true := List.any_eq_true.mpr ⟨p, hp, by simpa using hd⟩
    rw [h] at ht
    exact Bool.false_ne_true ht
  simp [hf]

/-- Effect of one mega-document inner loop on a single `(class, word)` cell. -/
theorem megaStep_content (s : Sample) (m : List (Label × Sample))
    (cls c : Label) (w : Term) :
    mgetMega (megaStep m cls s) c w =
      if c = cls ∧ occursIn s w then
        some ((mgetMega m c w).getD 0 + sampleCount s w)
      else mgetMega m c w := by
  induction s generalizing m with
  | nil => simp [megaStep, occursIn]
  | cons wc t ih =>
    obtain ⟨w0, v0⟩ := wc
    have hstep : megaStep m cls ((w0, v0) :: t) =
        megaStep (mset m cls (maddN ((mget m cls).getD []) w0 v0)) cls t := rfl
    rw [hstep, ih]
    have hocc : occursIn ((w0, v0) :: t) w = (decide (w0 = w) || occursIn t w) := by
      simp [occursIn]
    have hsc : sampleCount ((w0, v0) :: t) w =
        (if w0 = w then v0 else 0) + sampleCount t w := by
      by_cases hw : w0 = w <;> simp [sampleCount, List.filter_cons, hw]
    by_cases hc : c = cls
    · subst hc
      have hmega1 : mgetMega (mset m c (maddN ((mget m c).getD []) w0 v0)) c w =
          if w0 = w then some ((mgetMega m c w).getD 0 + v0) else mgetMega m c w := by
        unfold mgetMega
        rw [mget_mset, if_pos rfl, Option.some_bind, mget_maddN, mget_getD_bind]
      rw [hmega1, hocc, hsc]
      by_cases hw : w0 = w
      · by_cases ho : occursIn t w
        · simp [hw, ho, add_assoc]
        · simp [hw, ho, sampleCount_eq_zero t w (by simpa using ho)]
      · simp [hw]
    · have hne : mgetMega (mset m cls (maddN ((mget m cls).getD []) w0 v0)) c w =
          mgetMega m c w := by
        unfold mgetMega
        rw [mget_mset, if_neg (fun e => hc e.symm)]
      rw [hne, hocc, hsc]
      simp [hc]

/-- Content of the accumulated mega-documents after processing a list of
training pairs. -/
theorem megadocs_aux (l : List (Sample × Label)) (acc : List (Label × Sample))
    (c : Label) (w : Term) :
    mgetMega (l.foldl (fun m p => megaStep m p.2 p.1) acc) c w =
      if l.any (fun p => decide (p.2 = c) && occursIn p.1 w) then
        some ((mgetMega acc c w).getD 0 +
          ((l.filter fun p => decide (p.2 = c)).map fun p => sampleCount p.1 w).sum)
      else mgetMega acc c w := by
  induction l generalizing acc with
  | nil => simp
  | cons p t ih =>
    obtain ⟨s0, c0⟩ := p
    rw [List.foldl_cons, ih, megaStep_content]
    by_cases hc : c = c0
    · subst hc
      by_cases ho : occursIn s0 w
      · by_cases ht : t.any (fun p => decide (p.2 = c) && occursIn p.1 w)
        · simp [ho, ht, List.filter_cons, add_assoc]
        · have hz : ((t.filter fun p => decide (p.2 = c)).map
              fun p => sampleCount p.1 w).sum = 0 := by
            apply List.sum_eq_zero
            intro n hn
            rcases List.mem_map.mp hn with ⟨q, hq, rfl⟩
            rcases List.mem_filter.mp hq with ⟨hq1, hq2⟩
            have hocc : occursIn q.1 w = false := by
              cases hb : occursIn q.1 w with
              | false => rfl
              | true =>
                exact absurd (List.any_eq_true.mpr ⟨q, hq1, by simp [hq2, hb]⟩) ht
            exact sampleCount_eq_zero _ _ hocc
          simp [ho, ht, List.filter_cons, hz]
      · by_cases ht : t.any (fun p => decide (p.2 = c) && occursIn p.1 w)
        · simp [ho, ht, List.filter_cons, sampleCount_eq_zero s0 w (by simpa using ho)]
        · simp [ho, ht, List.filter_cons]
    · have hc' : ¬(c0 = c) := fun e => hc e.symm
      by_cases ht : t.any (fun p => decide (p.2 = c) && occursIn p.1 w) <;>
        simp [hc, hc', ht, List.filter_cons]

/-- Content of the mega-documents built by `fit`. -/
theorem megadocs_content (x : List Sample) (y : List Label) (c : Label) (w : Term) :
    mgetMega (megadocsOf x y) c w =
      if occursCls x y w c then some (termClassCount x y w c) else none := by
  unfold megadocsOf occursCls termClassCount
  rw [megadocs_aux]
  by_cases h : (x.zip y).any fun p => decide (p.2 = c) && occursIn p.1 w
  · simp [h, mgetMega, mget]
  · simp [h, mgetMega, mget]

/-- Effect of one likelihood-transfer inner loop on a single `(word, class)`
cell, for a mega-document with distinct word keys. -/
theorem likStep_content (s : Sample) (lik : Lik) (cls : Label) (w : Term) (c : Label)
    (hs : (mkeys s).Nodup) :
    mget2 (likStep lik cls s) w c =
      if c = cls ∧ (mget s w).isSome then mget s w else mget2 lik w c := by
  induction s generalizing lik with
  | nil => simp [likStep, mget, mget2]
  | cons wc t ih =>
    obtain ⟨w0, v0⟩ := wc
    have hstep : likStep lik cls ((w0, v0) :: t) =
        likStep (mset lik w0 (mset ((mget lik w0).getD []) cls v0)) cls t := rfl
    simp only [mkeys, List.map_cons, List.nodup_cons] at hs
    rw [hstep, ih _ (by simpa [mkeys] using hs.2)]
    have hlik1 : mget2 (mset lik w0 (mset ((mget lik w0).getD []) cls v0)) w c =
        if w0 = w then (if cls = c then some v0 else mget2 lik w c)
        else mget2 lik w c := by
      unfold mget2
      rw [mget_mset]
      by_cases hw : w0 = w
      · subst hw
        rw [if_pos rfl, if_pos rfl, Option.some_bind, mget_mset, ← mget_getD_bind]
      · rw [if_neg hw, if_neg hw]
    rw [hlik1]
    by_cases hw : w0 = w
    · subst hw
      have htn : mget t w0 = none := mget_eq_none t w0 (by simpa [mkeys] using hs.1)
      have hcons : mget ((w0, v0) :: t) w0 = some v0 := by simp [mget]
      rw [hcons]
      by_cases hcc : c = cls
      · simp [htn, hcc]
      · have hcc' : ¬(cls = c) := fun e => hcc e.symm
        simp [htn, hcc, hcc']
    · have hcons : mget ((w0, v0) :: t) w = mget t w := by simp [mget, hw]
      rw [hcons]
      simp [hw]

/-- Content of the likelihood accumulator after transferring a list of
mega-documents with distinct class keys and distinct word keys. -/
theorem likelihoodOf_aux :
    ∀ (mega : List (Label × Sample)) (acc : Lik),
    (mkeys mega).Nodup → (∀ p ∈ mega, (mkeys p.2).Nodup) → ∀ (w : Term) (c : Label),
    mget2 (mega.foldl (fun lik p => likStep lik p.1 p.2) acc) w c =
      if (mgetMega mega c w).isSome then mgetMega mega c w else mget2 acc w c := by
  intro mega
  induction mega with
  | nil => intro acc _ _ w c; simp [mgetMega, mget]
  | cons p t ih =>
    intro acc h1 h2 w c
    obtain ⟨c0, s0⟩ := p
    simp only [mkeys, List.map_cons, List.nodup_cons] at h1
    have hs0 : (mkeys s0).Nodup := by
      simpa using h2 (c0, s0) (List.mem_cons_self _ _)
    rw [List.foldl_cons,
      ih _ (by simpa [mkeys] using h1.2) (fun q hq => h2 q (List.mem_cons_of_mem _ hq)) w c,
      likStep_content s0 acc c0 w c hs0]
    have hmega : mgetMega ((c0, s0) :: t) c w =
        if c0 = c then mget s0 w else mgetMega t c w := by
      unfold mgetMega
      rw [show mget ((c0, s0) :: t) c = if c0 = c then some s0 else mget t c from by
        simp [mget]]
      by_cases hcc : c0 = c <;> simp [hcc]
    rw [hmega]
    by_cases hcc : c0 = c
    · subst hcc
      have htn : mget t c0 = none := mget_eq_none t c0 (by simpa [mkeys] using h1.1)
      simp [mgetMega, htn]
    · have hcc' : ¬(c = c0) := fun e => hcc e.symm
      simp [hcc, hcc']

/-- One mega-document inner loop preserves distinctness of the class keys
and of every stored sample's word keys. -/
theorem megaStep_nodup (s : Sample) (m : List (Label × Sample)) (cls : Label)
    (h1 : (mkeys m).Nodup) (h2 : ∀ p ∈ m, (mkeys p.2).Nodup) :
    (mkeys (megaStep m cls s)).Nodup ∧ ∀ p ∈ megaStep m cls s, (mkeys p.2).Nodup := by
  induction s generalizing m with
  | nil => exact ⟨h1, h2⟩
  | cons wc t ih =>
    apply ih
    · exact mkeys_mset_nodup _ _ _ h1
    · intro q hq
      rcases mem_mset _ _ _ _ hq with h | h
      · subst h
        show (mkeys (maddN ((mget m cls).getD []) wc.1 wc.2)).Nodup
        apply mkeys_mset_nodup
        cases hg : mget m cls with
        | none => simp [mkeys]
        | some s0 => simpa using h2 (cls, s0) (mget_mem _ _ _ hg)
      · exact h2 q h

/-- The mega-documents built by `fit` have distinct class keys, and every
mega-document has distinct word keys. -/
theorem megadocs_nodup (x : List Sample) (y : List Label) :
    (mkeys (megadocsOf x y)).Nodup ∧ ∀ p ∈ megadocsOf x y, (mkeys p.2).Nodup := by
  unfold megadocsOf
  suffices h : ∀ (l : List (Sample × Label)) (acc : List (Label × Sample)),
      (mkeys acc).Nodup → (∀ p ∈ acc, (mkeys p.2).Nodup) →
      (mkeys (l.foldl (fun m p => megaStep m p.2 p.1) acc)).Nodup ∧
        ∀ p ∈ l.foldl (fun m p => megaStep m p.2 p.1) acc, (mkeys p.2).Nodup by
    exact h _ [] (by simp [mkeys]) (by simp)
  intro l
  induction l with
  | nil => intro acc ha1 ha2; exact ⟨ha1, ha2⟩
  | cons p t ih =>
    intro acc ha1 ha2
    rw [List.foldl_cons]
    obtain ⟨hm1, hm2⟩ := megaStep_nodup p.1 acc p.2 ha1 ha2
    exact ih _ hm1 hm2

/-- Content of the likelihood table built by `fit`: the `(w, c)` entry is
present exactly when `w` occurs in some class-`c` training document, and it
then stores the raw co-occurrence count. -/
theorem fit_likelihood_content (x : List Sample) (y : List Label) (w : Term) (c : Label) :
    mget2 (likelihoodOf (megadocsOf x y)) w c =
      if occursCls x y w c then some (termClassCount x y w c) else none := by
  obtain ⟨h1, h2⟩ := megadocs_nodup x y
  unfold likelihoodOf
  rw [likelihoodOf_aux _ [] h1 h2 w c, megadocs_content]
  by_cases h : occursCls x y w c <;> simp [h, mget2, mget]

/-- A stored likelihood count is bounded by the total term count of its
class over the whole table. -/
theorem mget2_le_classTotal (lik : Lik) (w : Term) (c : Label) (v : Nat)
    (h : mget2 lik w c = some v) : v ≤ classTotal lik c := by
  unfold mget2 at h
  cases hw : mget lik w with
  | none => rw [hw] at h; simp at h
  | some inner =>
    rw [hw, Option.some_bind] at h
    have hmem : (w, inner) ∈ lik := mget_mem _ _ _ hw
    have hv : (mget inner c).getD 0 = v := by rw [h]; rfl
    unfold classTotal
    calc v = (mget inner c).getD 0 := hv.symm
    _ ≤ _ := List.single_le_sum (fun n _ => Nat.zero_le n) _
        (List.mem_map_of_mem (fun wp => (mget wp.2 c).getD 0) hmem)

/-- A table with at least one word entry has a positive dictionary size. -/
theorem dictSizeOf_pos (lik : Lik) (w : Term) (hv : (mget lik w).isSome) :
    0 < dictSizeOf lik := by
  unfold dictSizeOf
  cases hw : mget lik w with
  | none => rw [hw] at hv; simp at hv
  | some inner =>
    have hmem : w ∈ lik.map Prod.fst := List.mem_map_of_mem _ (mget_mem _ _ _ hw)
    have hd : w ∈ (lik.map Prod.fst).dedup := List.mem_dedup.mpr hmem
    exact List.length_pos.mpr (fun e => by simp [e] at hd)

/-- Bounds on the add-one smoothed fraction. -/
theorem laplace_bounds (v T D : Nat) (hD : 1 ≤ D) (hvT : v ≤ T) :
    0 < laplace_smooth (v : ℚ) (T : ℚ) D 1 ∧ laplace_smooth (v : ℚ) (T : ℚ) D 1 ≤ 1 := by
  unfold laplace_smooth
  have h1 : (1 : ℚ) ≤ (D : ℚ) := by exact_mod_cast hD
  have h2 : (0 : ℚ) ≤ (T : ℚ) := Nat.cast_nonneg T
  have hden : (0 : ℚ) < (T : ℚ) + 1 * (D : ℚ) := by linarith
  constructor
  · apply div_pos _ hden
    positivity
  · rw [div_le_one hden]
    have h3 : (v : ℚ) ≤ (T : ℚ) := by exact_mod_cast hvT
    linarith

/-- C1 counterexample: after `fit` on the single document `{a: 2}` with
class `c`, the likelihood table maps `(a, c)` to the raw count `2`, while
the Laplace-smoothed conditional probability of the claim is
`(2+1)/(2+1) = 1`; in particular the stored value is neither that
probability nor in `(0, 1]`. -/
theorem C1_counterexample :
    mget2 ((NBC.init 0 0).fit [[("a", 2)]] ["c"]).likelihood "a" "c" = some 2 ∧
    laplace_smooth ((2 : Nat) : ℚ) ((2 : Nat) : ℚ) 1 1 = 1 ∧
    ¬(((2 : Nat) : ℚ) = laplace_smooth ((2 : Nat) : ℚ) ((2 : Nat) : ℚ) 1 1 ∧
      ((2 : Nat) : ℚ) ≤ 1) := by
  refine ⟨rfl, by norm_num [laplace_smooth], ?_⟩
  rintro ⟨h, -⟩
  rw [show laplace_smooth ((2 : Nat) : ℚ) ((2 : Nat) : ℚ) 1 1 = 1 from by
    norm_num [laplace_smooth]] at h
  norm_num at h

/-- C1 (amended): after `fit` on equal-length, non-empty inputs, every
entry `(t, c)` of the likelihood table stores the raw co-occurrence count
`count(t, c)` — the sum of `t`'s counts over all training documents of
class `c` — and the Laplace-smoothed probability
`(count(t,c) + 1) / (total_terms_in_class(c) + |vocabulary|)` derived from
the stored count (the quantity `predict` later feeds to the logarithm)
lies in `(0, 1]`. -/
theorem C1_likelihood_raw_count (clf : NBC) (x : List Sample) (y : List Label)
    (hlen : x.length = y.length) (hne : x ≠ []) (w : Term) (c : Label) (v : Nat)
    (hv : mget2 (clf.fit x y).likelihood w c = some v) :
    v = termClassCount x y w c ∧
    0 < laplace_smooth (v : ℚ) ((classTotal (clf.fit x y).likelihood c : Nat) : ℚ)
        (dictSizeOf (clf.fit x y).likelihood) 1 ∧
    laplace_smooth (v : ℚ) ((classTotal (clf.fit x y).likelihood c : Nat) : ℚ)
        (dictSizeOf (clf.fit x y).likelihood) 1 ≤ 1 := by
  have hlik : (clf.fit x y).likelihood = likelihoodOf (megadocsOf x y) := rfl
  have hvcc : v = termClassCount x y w c := by
    have h := hv
    rw [hlik, fit_likelihood_content] at h
    by_cases hocc : occursCls x y w c
    · rw [if_pos hocc] at h
      exact (Option.some_injective _ h).symm
    · rw [if_neg hocc] at h
      exact absurd h (by simp)
  have hsome : (mget (clf.fit x y).likelihood w).isSome := by
    unfold mget2 at hv
    cases hw : mget (clf.fit x y).likelihood w with
    | none => rw [hw] at hv; simp at hv
    | some inner => simp
  have hD : 1 ≤ dictSizeOf (clf.fit x y).likelihood :=
    dictSizeOf_pos _ w hsome
  have hvT : v ≤ classTotal (clf.fit x y).likelihood c :=
    mget2_le_classTotal _ w c v hv
  exact ⟨hvcc, (laplace_bounds v _ _ hD hvT).1, (laplace_bounds v _ _ hD hvT).2⟩

/-- Witness for C1 at the concrete training set `x = [{a: 2}]`, `y = [c]`. -/
theorem C1_witness :
    (([[("a", 2)]] : List Sample).length = (["c"] : List Label).length ∧
      ([[("a", 2)]] : List Sample) ≠ [] ∧
      mget2 ((NBC.init 0 0).fit [[("a", 2)]] ["c"]).likelihood "a" "c" = some 2) ∧
    (2 = termClassCount [[("a", 2)]] ["c"] "a" "c" ∧
      0 < laplace_smooth ((2 : Nat) : ℚ)
          ((classTotal ((NBC.init 0 0).fit [[("a", 2)]] ["c"]).likelihood "c" : Nat) : ℚ)
          (dictSizeOf ((NBC.init 0 0).fit [[("a", 2)]] ["c"]).likelihood) 1 ∧
      laplace_smooth ((2 : Nat) : ℚ)
          ((classTotal ((NBC.init 0 0).fit [[("a", 2)]] ["c"]).likelihood "c" : Nat) : ℚ)
          (dictSizeOf ((NBC.init 0 0).fit [[("a", 2)]] ["c"]).likelihood) 1 ≤ 1) :=
  ⟨⟨rfl, by simp, rfl⟩,
    C1_likelihood_raw_count (NBC.init 0 0) [[("a", 2)]] ["c"] rfl (by simp)
      "a" "c" 2 rfl⟩

theorem msum_mset (m : ClsMap) (k : Label) (w : Nat) :
    msum (mset m k w) + (mget m k).getD 0 = msum m + w := by
  induction m with
  | nil => simp [mset, mget, msum]
  | cons p t ih =>
    have hmt : msum (p :: t) = p.2 + msum t := by simp [msum]
    by_cases hp : p.1 = k
    · have hms : msum (mset (p :: t) k w) = w + msum t := by
        simp [mset, if_pos hp, msum]
      have hmg : (mget (p :: t) k).getD 0 = p.2 := by simp [mget, if_pos hp]
      rw [hms, hmg, hmt]
      omega
    · have hms : msum (mset (p :: t) k w) = p.2 + msum (mset t k w) := by
        simp [mset, if_neg hp, msum]
      have hmg : (mget (p :: t) k).getD 0 = (mget t k).getD 0 := by
        simp [mget, if_neg hp]
      rw [hms, hmg, hmt]
      omega

theorem msum_maddN (m : ClsMap) (k : Label) (v : Nat) :
    msum (maddN m k v) = msum m + v := by
  have h := msum_mset m k ((mget m k).getD 0 + v)
  unfold maddN
  omega

theorem priorOf_msum (y : List Label) : msum (priorOf y) = y.length := by
  unfold priorOf
  suffices h : ∀ (l : List Label) (acc : ClsMap),
      msum (l.foldl (fun m c => maddN m c 1) acc) = msum acc + l.length by
    simpa [msum] using h y []
  intro l
  induction l with
  | nil => intro acc; simp
  | cons c t ih =>
    intro acc
    rw [List.foldl_cons, ih, msum_maddN]
    simp only [List.length_cons]
    omega

theorem map_div_sum (m : ClsMap) (N : ℚ) :
    ((m.map fun p => ((p.2 : Nat) : ℚ) / N).sum) = ((msum m : Nat) : ℚ) / N := by
  induction m with
  | nil => simp [msum]
  | cons p t ih =>
    have hmt : msum (p :: t) = p.2 + msum t := by simp [msum]
    rw [List.map_cons, List.sum_cons, ih, hmt]
    push_cast
    rw [add_div]

/-- C8: after `fit` on a non-empty training set the stored per-class prior
counts, divided by the number of training documents, sum to exactly `1`;
moreover any classifier built by the `(prior, likelihood)` constructor from
such a prior has `total_samples` equal to the number of training documents,
so the prior probabilities `count / total_samples` used by `predict` on the
deserialisation path sum to `1` as well. -/
theorem C8_priors_sum_to_one (y : List Label) (hne : y ≠ []) :
    (((priorOf y).map fun p => ((p.2 : Nat) : ℚ) / ((y.length : Nat) : ℚ)).sum) = 1 ∧
    ∀ (lik : Lik) (clfr : NBC), mkNBC (priorOf y) lik = some clfr →
      clfr.total_samples = y.length := by
  constructor
  · have hlen : (0 : ℚ) < ((y.length : Nat) : ℚ) := by
      have h0 : 0 < y.length := List.length_pos.mpr hne
      exact_mod_cast h0
    rw [map_div_sum, priorOf_msum]
    exact div_self (ne_of_gt hlen)
  · intro lik clfr h
    unfold mkNBC at h
    cases hc : classTermCountsOf (mkeys (priorOf y)) lik with
    | none => rw [hc] at h; simp at h
    | some counts =>
      rw [hc] at h
      have h2 : some (⟨dictSizeOf lik, mkeys (priorOf y), counts, msum (priorOf y),
          priorOf y, lik⟩ : NBC) = some clfr := by simpa using h
      have hclfr : clfr = ⟨dictSizeOf lik, mkeys (priorOf y), counts,
          msum (priorOf y), priorOf y, lik⟩ := by
        injection h2 with h3
        exact h3.symm
      rw [hclfr]
      exact priorOf_msum y

/-- Witness for C8 at the concrete one-document training set `y = [A]`. -/
theorem C8_witness :
    ((["A"] : List Label) ≠ []) ∧
    ((((priorOf ["A"]).map fun p =>
        ((p.2 : Nat) : ℚ) / (((["A"] : List Label).length : Nat) : ℚ)).sum) = 1 ∧
      ∀ (lik : Lik) (clfr : NBC), mkNBC (priorOf ["A"]) lik = some clfr →
        clfr.total_samples = (["A"] : List Label).length) :=
  ⟨by simp, C8_priors_sum_to_one ["A"] (by simp)⟩

/-- C9: `remove_punctuation("")` returns the empty string, but on the
all-punctuation token `"!!!"` the forward trimming loop escapes the string
bounds (it reads the terminator, which still satisfies the removal
predicate, writes at index `size()` and reads past it), modelled as
`none` — so the claimed "no out-of-bounds access" fails. -/
theorem C9_remove_punctuation_oob :
    remove_punctuation "" = some "" ∧ remove_punctuation "!!!" = none :=
  ⟨rfl, rfl⟩

/-- C3 counterexample: the deserialised classifier with priors
`{A: 1, B: 1}` and likelihood `{a: {A: 2}, b: {B: 3}}` has vocabulary size
`2` and class term counts `[2, 3]`; for the pair `(a, B)` — `a` never
observed for class `B` — the probability `predict` feeds to the logarithm
is `laplace_smooth(0, 3, 2, 1) = 1/5`, not `1/|vocabulary| = 1/2`. -/
theorem C3_counterexample :
    mkNBC [("A", 1), ("B", 1)] [("a", [("A", 2)]), ("b", [("B", 3)])] =
      some ⟨2, ["A", "B"], [2, 3], 2, [("A", 1), ("B", 1)],
        [("a", [("A", 2)]), ("b", [("B", 3)])]⟩ ∧
    mget2 [("a", [("A", 2)]), ("b", [("B", 3)])] "a" "B" = none ∧
    termProb ⟨2, ["A", "B"], [2, 3], 2, [("A", 1), ("B", 1)],
        [("a", [("A", 2)]), ("b", [("B", 3)])]⟩ "B" 3 "a" = 1 / 5 ∧
    ¬((1 / 5 : ℚ) = 1 / 2) := by
  refine ⟨rfl, rfl, ?_, by norm_num⟩
  have hget : mget2 [("a", [("A", 2)]), ("b", [("B", 3)])] "a" "B" = none := rfl
  unfold termProb laplace_smooth
  rw [hget]
  norm_num

/-- C3 (amended): for a `(term, class)` pair with no stored likelihood
entry, the probability substituted in `predict`'s scoring is
`1 / (class_term_count + |vocabulary|)` — `laplace_smooth(0, denom, |V|, 1)`
— and it is positive (so `log(0)` cannot occur) whenever the vocabulary is
non-empty. -/
theorem C3_unseen_term_fallback (clf : NBC) (cls : Label) (cls_count : Nat)
    (w : Term) (h : mget2 clf.likelihood w cls = none) :
    termProb clf cls cls_count w =
      1 / (((cls_count : Nat) : ℚ) + ((clf.dict_size : Nat) : ℚ)) ∧
    (0 < clf.dict_size → 0 < termProb clf cls cls_count w) := by
  have h0 : ((mget2 clf.likelihood w cls).getD 0 : Nat) = 0 := by rw [h]; rfl
  constructor
  · unfold termProb laplace_smooth
    rw [h0]
    norm_num
  · intro hd
    unfold termProb laplace_smooth
    rw [h0]
    have h1 : (1 : ℚ) ≤ ((clf.dict_size : Nat) : ℚ) := by exact_mod_cast hd
    have h2 : (0 : ℚ) ≤ ((cls_count : Nat) : ℚ) := Nat.cast_nonneg _
    exact div_pos (by norm_num) (by linarith)

/-- Witness for C3 at the concrete deserialised classifier of the
counterexample instance, pair `(a, B)`. -/
theorem C3_witness :
    (mget2 [("a", [("A", 2)]), ("b", [("B", 3)])] "a" "B" = none ∧
      0 < (⟨2, ["A", "B"], [2, 3], 2, [("A", 1), ("B", 1)],
        [("a", [("A", 2)]), ("b", [("B", 3)])]⟩ : NBC).dict_size) ∧
    (termProb ⟨2, ["A", "B"], [2, 3], 2, [("A", 1), ("B", 1)],
        [("a", [("A", 2)]), ("b", [("B", 3)])]⟩ "B" 3 "a" =
      1 / (((3 : Nat) : ℚ) +
        (((⟨2, ["A", "B"], [2, 3], 2, [("A", 1), ("B", 1)],
          [("a", [("A", 2)]), ("b", [("B", 3)])]⟩ : NBC).dict_size : Nat) : ℚ)) ∧
      (0 < (⟨2, ["A", "B"], [2, 3], 2, [("A", 1), ("B", 1)],
          [("a", [("A", 2)]), ("b", [("B", 3)])]⟩ : NBC).dict_size →
        0 < termProb ⟨2, ["A", "B"], [2, 3], 2, [("A", 1), ("B", 1)],
          [("a", [("A", 2)]), ("b", [("B", 3)])]⟩ "B" 3 "a")) :=
  ⟨⟨rfl, by norm_num⟩,
    C3_unseen_term_fallback _ "B" 3 "a" rfl⟩

/-- C2 evidence: `fit` never initialises `m_class_vec`,
`m_class_term_counts` or `total_samples`.  After default construction and
`fit` on `x = [{a:1}, {a:1}, {b:9}]`, `y = [A, A, B]`, the posterior map
computed by `predict` on the sample `{b: 1}` is exactly
`[(A, log(2/garbage_total)), (B, log(1/garbage_total))]` for every garbage
value of the uninitialised `total_samples` — the likelihood table (second
conjunct: it does store `{a:{A:2}, b:{B:9}}`) contributes nothing, while
the claim requires each score to include `count * log(p(term|class))`
terms. -/
theorem C2_fit_path_scores_ignore_likelihood (R : Type) [LinearOrderedField R]
    (lg : ℚ → R) (gdict gtotal : Nat) :
    predictScores lg
        ((NBC.init gdict gtotal).fit [[("a", 1)], [("a", 1)], [("b", 9)]]
          ["A", "A", "B"]) [("b", 1)] =
      [("A", lg (((2 : Nat) : ℚ) / ((gtotal : Nat) : ℚ))),
       ("B", lg (((1 : Nat) : ℚ) / ((gtotal : Nat) : ℚ)))] ∧
    ((NBC.init gdict gtotal).fit [[("a", 1)], [("a", 1)], [("b", 9)]]
        ["A", "A", "B"]).likelihood = [("a", [("A", 2)]), ("b", [("B", 9)])] := by
  exact ⟨rfl, rfl⟩

/-- `max_element` over a two-entry posterior map picks the second entry
exactly when its score is strictly greater. -/
theorem maxElement_pair {R : Type} [LinearOrderedField R] (a b : Label) (x y : R) :
    maxElement [(a, x), (b, y)] = some (if x < y then (b, y) else (a, x)) := rfl

/-- C4 evidence: writing the classifier fitted on
`x = [{a:1}, {a:1}, {b:9}]`, `y = [A, A, B]` (with garbage `7` in the
uninitialised `total_samples`) and reading it back reproduces the prior
and likelihood tables exactly — but on the sample `{b: 1}` the
round-tripped classifier predicts `B` (full Naive Bayes scoring) while the
original in-memory fitted object predicts `A` (its `predict` ignores the
likelihood table because `fit` left `m_class_vec` empty and
`total_samples` uninitialised).  `lg` abstracts `std::log`: any function
that turns products of positive rationals into sums and is strictly
monotone on them, e.g. `logQ`. -/
theorem C4_roundtrip_tables_but_not_predictions (R : Type) [LinearOrderedField R]
    (lg : ℚ → R)
    (hmul : ∀ a b : ℚ, 0 < a → 0 < b → lg (a * b) = lg a + lg b)
    (hmono : ∀ a b : ℚ, 0 < a → a < b → lg a < lg b) :
    readNBC (writeNBC ((NBC.init 0 7).fit [[("a", 1)], [("a", 1)], [("b", 9)]]
        ["A", "A", "B"])) =
      some ⟨2, ["A", "B"], [2, 9], 3, [("A", 2), ("B", 1)],
        [("a", [("A", 2)]), ("b", [("B", 9)])]⟩ ∧
    (⟨2, ["A", "B"], [2, 9], 3, [("A", 2), ("B", 1)],
        [("a", [("A", 2)]), ("b", [("B", 9)])]⟩ : NBC).prior =
      ((NBC.init 0 7).fit [[("a", 1)], [("a", 1)], [("b", 9)]] ["A", "A", "B"]).prior ∧
    (⟨2, ["A", "B"], [2, 9], 3, [("A", 2), ("B", 1)],
        [("a", [("A", 2)]), ("b", [("B", 9)])]⟩ : NBC).likelihood =
      ((NBC.init 0 7).fit [[("a", 1)], [("a", 1)], [("b", 9)]]
        ["A", "A", "B"]).likelihood ∧
    NBC.predictOne lg (⟨2, ["A", "B"], [2, 9], 3, [("A", 2), ("B", 1)],
        [("a", [("A", 2)]), ("b", [("B", 9)])]⟩ : NBC) [("b", 1)] = some "B" ∧
    NBC.predictOne lg ((NBC.init 0 7).fit [[("a", 1)], [("a", 1)], [("b", 9)]]
        ["A", "A", "B"]) [("b", 1)] = some "A" := by
  refine ⟨rfl, rfl, rfl, ?_, ?_⟩
  · -- round-tripped classifier: full scoring picks B
    have hscores : predictScores lg (⟨2, ["A", "B"], [2, 9], 3, [("A", 2), ("B", 1)],
        [("a", [("A", 2)]), ("b", [("B", 9)])]⟩ : NBC) [("b", 1)] =
        [("A", lg ((2 : ℚ) / 3) + lg ((1 : ℚ) / 4)),
         ("B", lg ((1 : ℚ) / 3) + lg ((10 : ℚ) / 11))] := by
      have h0 : predictScores lg (⟨2, ["A", "B"], [2, 9], 3, [("A", 2), ("B", 1)],
          [("a", [("A", 2)]), ("b", [("B", 9)])]⟩ : NBC) [("b", 1)] =
          [("A", lg (((2 : Nat) : ℚ) / ((3 : Nat) : ℚ)) +
            (((1 : Nat) : R) * lg (laplace_smooth ((0 : Nat) : ℚ) ((2 : Nat) : ℚ) 2 1))),
           ("B", lg (((1 : Nat) : ℚ) / ((3 : Nat) : ℚ)) +
            (((1 : Nat) : R) * lg (laplace_smooth ((9 : Nat) : ℚ) ((9 : Nat) : ℚ) 2 1)))] := rfl
      rw [h0]
      norm_num [laplace_smooth]
    have hlt : lg ((2 : ℚ) / 3) + lg ((1 : ℚ) / 4) <
        lg ((1 : ℚ) / 3) + lg ((10 : ℚ) / 11) := by
      rw [← hmul ((2 : ℚ) / 3) ((1 : ℚ) / 4) (by norm_num) (by norm_num),
        ← hmul ((1 : ℚ) / 3) ((10 : ℚ) / 11) (by norm_num) (by norm_num)]
      exact hmono _ _ (by norm_num) (by norm_num)
    unfold NBC.predictOne
    rw [hscores, maxElement_pair, if_pos hlt]
    rfl
  · -- original fitted object: prior-only scoring picks A
    have hscores : predictScores lg ((NBC.init 0 7).fit
        [[("a", 1)], [("a", 1)], [("b", 9)]] ["A", "A", "B"]) [("b", 1)] =
        [("A", lg ((2 : ℚ) / 7)), ("B", lg ((1 : ℚ) / 7))] := by
      have h0 : predictScores lg ((NBC.init 0 7).fit
          [[("a", 1)], [("a", 1)], [("b", 9)]] ["A", "A", "B"]) [("b", 1)] =
          [("A", lg (((2 : Nat) : ℚ) / ((7 : Nat) : ℚ))),
           ("B", lg (((1 : Nat) : ℚ) / ((7 : Nat) : ℚ)))] := rfl
      rw [h0]
      norm_num
    have hgt : lg ((1 : ℚ) / 7) < lg ((2 : ℚ) / 7) :=
      hmono _ _ (by norm_num) (by norm_num)
    unfold NBC.predictOne
    rw [hscores, maxElement_pair, if_neg (not_lt.mpr (le_of_lt hgt))]
    rfl

/-- Witness for C4: the abstract logarithm hypotheses hold for the real
logarithm `logQ`, and the theorem's conclusion follows at that instance. -/
theorem C4_witness :
    ((∀ a b : ℚ, 0 < a → 0 < b → logQ (a * b) = logQ a + logQ b) ∧
      (∀ a b : ℚ, 0 < a → a < b → logQ a < logQ b)) ∧
    (readNBC (writeNBC ((NBC.init 0 7).fit [[("a", 1)], [("a", 1)], [("b", 9)]]
        ["A", "A", "B"])) =
      some ⟨2, ["A", "B"], [2, 9], 3, [("A", 2), ("B", 1)],
        [("a", [("A", 2)]), ("b", [("B", 9)])]⟩ ∧
    (⟨2, ["A", "B"], [2, 9], 3, [("A", 2), ("B", 1)],
        [("a", [("A", 2)]), ("b", [("B", 9)])]⟩ : NBC).prior =
      ((NBC.init 0 7).fit [[("a", 1)], [("a", 1)], [("b", 9)]] ["A", "A", "B"]).prior ∧
    (⟨2, ["A", "B"], [2, 9], 3, [("A", 2), ("B", 1)],
        [("a", [("A", 2)]), ("b", [("B", 9)])]⟩ : NBC).likelihood =
      ((NBC.init 0 7).fit [[("a", 1)], [("a", 1)], [("b", 9)]]
        ["A", "A", "B"]).likelihood ∧
    NBC.predictOne logQ (⟨2, ["A", "B"], [2, 9], 3, [("A", 2), ("B", 1)],
        [("a", [("A", 2)]), ("b", [("B", 9)])]⟩ : NBC) [("b", 1)] = some "B" ∧
    NBC.predictOne logQ ((NBC.init 0 7).fit [[("a", 1)], [("a", 1)], [("b", 9)]]
        ["A", "A", "B"]) [("b", 1)] = some "A") := by
  have hmul : ∀ a b : ℚ, 0 < a → 0 < b → logQ (a * b) = logQ a + logQ b := by
    intro a b ha hb
    unfold logQ
    push_cast
    exact Real.log_mul (by exact_mod_cast ne_of_gt ha) (by exact_mod_cast ne_of_gt hb)
  have hmono : ∀ a b : ℚ, 0 < a → a < b → logQ a < logQ b := by
    intro a b ha hab
    unfold logQ
    exact Real.log_lt_log (by exact_mod_cast ha) (by exact_mod_cast hab)
  exact ⟨⟨hmul, hmono⟩,
    C4_roundtrip_tables_but_not_predictions ℝ logQ hmul hmono⟩

theorem popTopK_eq_none {R : Type} [LinearOrderedField R] :
    ∀ (k : Nat) (v : List (Term × R)), v.length < k → popTopK k v = none := by
  intro k
  induction k with
  | zero => intro v hv; exact absurd hv (Nat.not_lt_zero _)
  | succ k ih =>
    intro v hv
    cases v with
    | nil => rfl
    | cons h t =>
      simp only [popTopK]
      rw [ih t (by simpa using Nat.lt_of_succ_lt_succ hv)]
      rfl

/-- C5: requesting `K = 10` top words from the vocabulary `{a, b, c}` of
size `3` pops an exhausted heap vector: `front()` on an empty vector,
undefined behaviour (`none`) instead of the claimed graceful return of all
three terms — for every possible logarithm. -/
theorem C5_topk_crashes_beyond_vocab (R : Type) [LinearOrderedField R]
    (lg2 : Nat → R) :
    get_top_words_per_class lg2 [[("a", 1), ("b", 1), ("c", 1)]] ["A"] ["A"] 10 =
      none := by
  have hd : dictOf [[("a", 1), ("b", 1), ("c", 1)]] = ["a", "b", "c"] := by decide
  have hlen : (sortDesc (mutual_info lg2 [[("a", 1), ("b", 1), ("c", 1)]]
      ["A"] "A")).length = 3 := by
    unfold sortDesc
    rw [List.length_insertionSort]
    unfold mutual_info
    rw [List.length_map, hd]
    rfl
  have hpop : popTopK 10 (sortDesc (mutual_info lg2 [[("a", 1), ("b", 1), ("c", 1)]]
      ["A"] "A")) = none :=
    popTopK_eq_none 10 _ (by rw [hlen]; norm_num)
  unfold get_top_words_per_class
  simp [hpop]

theorem eraseKey_sublist (s : Sample) (w : Term) : (eraseKey s w).Sublist s := by
  induction s with
  | nil => exact List.Sublist.refl _
  | cons p t ih =>
    by_cases hp : p.1 = w
    · simp only [eraseKey, if_pos hp]
      exact List.sublist_cons_self _ _
    · simp only [eraseKey, if_neg hp]
      exact List.Sublist.cons₂ _ ih

theorem erase_fold_sublist (top : List Term) :
    ∀ (ws : List Term) (s : Sample),
    (ws.foldl (fun s' w => if bsearchList top w then s' else eraseKey s' w) s).Sublist s := by
  intro ws
  induction ws with
  | nil => intro s; exact List.Sublist.refl _
  | cons w t ih =>
    intro s
    rw [List.foldl_cons]
    by_cases hb : bsearchList top w
    · rw [if_pos hb]
      exact ih s
    · rw [if_neg hb]
      exact (ih (eraseKey s w)).trans (eraseKey_sublist s w)

theorem pruneDoc_sublist (top : List Term) (s : Sample) :
    (pruneDoc top s).Sublist s := erase_fold_sublist top (s.map Prod.fst) s

theorem zipWith_getq {α β γ : Type} (f : α → β → γ) :
    ∀ (l1 : List α) (l2 : List β) (i : Nat),
    (List.zipWith f l1 l2).get? i =
      (l1.get? i).bind fun a => (l2.get? i).map fun b => f a b := by
  intro l1
  induction l1 with
  | nil => intro l2 i; simp
  | cons a t1 ih =>
    intro l2 i
    cases l2 with
    | nil => simp
    | cons b t2 =>
      cases i with
      | zero => simp
      | succ j => simpa using ih t2 j

/-- Frame invariant of the class-loop fold of `remove_unimportant_words`. -/
theorem remove_aux (top : List (Label × List Term)) :
    ∀ (x : List Sample) (y : List Label), x.length = y.length →
    (top.foldl (fun acc p =>
        (List.zipWith (fun s c => if c = p.1 then pruneDoc p.2 s else s) acc.1 acc.2,
          acc.2)) (x, y)).2 = y ∧
    (top.foldl (fun acc p =>
        (List.zipWith (fun s c => if c = p.1 then pruneDoc p.2 s else s) acc.1 acc.2,
          acc.2)) (x, y)).1.length = x.length ∧
    ∀ (i : Nat) (s s' : Sample), x.get? i = some s →
      (top.foldl (fun acc p =>
        (List.zipWith (fun s c => if c = p.1 then pruneDoc p.2 s else s) acc.1 acc.2,
          acc.2)) (x, y)).1.get? i = some s' →
      s'.Sublist s ∧ ∀ c : Label, y.get? i = some c → mget top c = none → s' = s := by
  induction top with
  | nil =>
    intro x y _
    refine ⟨rfl, rfl, ?_⟩
    intro i s s' hs hs'
    simp only [List.foldl_nil] at hs'
    rw [hs] at hs'
    obtain rfl : s = s' := by injection hs'
    exact ⟨List.Sublist.refl _, fun _ _ _ => rfl⟩
  | cons p t ih =>
    intro x y hlen
    rw [List.foldl_cons]
    set x1 := List.zipWith (fun s c => if c = p.1 then pruneDoc p.2 s else s) x y
      with hx1
    have hlen1 : x1.length = y.length := by
      rw [hx1, List.length_zipWith, hlen, Nat.min_self]
    obtain ⟨ha, hb, hc⟩ := ih x1 y hlen1
    refine ⟨ha, by rw [hb]; omega, ?_⟩
    intro i s s' hs hs'
    have hyi : ∃ c, y.get? i = some c := by
      have hilt : i < y.length := by
        rw [← hlen]
        exact List.get?_eq_some.mp hs |>.1
      exact ⟨y.get ⟨i, hilt⟩, List.get?_eq_get hilt⟩
    obtain ⟨c, hcy⟩ := hyi
    have hx1i : x1.get? i = some (if c = p.1 then pruneDoc p.2 s else s) := by
      rw [hx1, zipWith_getq, hs, hcy]
      rfl
    obtain ⟨hsub, hunch⟩ := hc i _ s' hx1i hs'
    constructor
    · by_cases hcp : c = p.1
      · rw [if_pos hcp] at hsub
        exact hsub.trans (pruneDoc_sublist _ _)
      · rwa [if_neg hcp] at hsub
    · intro c' hcy' hnone
      obtain rfl : c = c' := by
        rw [hcy] at hcy'
        injection hcy'
      have hpc : ¬(p.1 = c) := by
        intro e
        rw [mget, if_pos e] at hnone
        exact Option.noConfusion hnone
      have htc : mget t c = none := by
        rw [mget, if_neg hpc] at hnone
        exact hnone
      have hcp : ¬(c = p.1) := fun e => hpc e.symm
      rw [if_neg hcp] at hunch
      exact hunch c hcy htc

/-- C10: for equal-length training data and any per-class top-word map
with sorted word vectors, `remove_unimportant_words` leaves `y_train`
unchanged, keeps the number of documents, turns every document into a
sublist of its original entry list (so it only erases whole `(term, count)`
entries: every retained term keeps its original count and no term is
added), and leaves every document whose gold class is not a key of the map
unchanged. -/
theorem C10_remove_unimportant_frame (x : List Sample) (y : List Label)
    (top : List (Label × List Term)) (hlen : x.length = y.length)
    (hsorted : ∀ p ∈ top, List.Sorted (fun a b => strLeB a b = true) p.2) :
    (remove_unimportant_words x y top).2 = y ∧
    (remove_unimportant_words x y top).1.length = x.length ∧
    ∀ (i : Nat) (s s' : Sample), x.get? i = some s →
      (remove_unimportant_words x y top).1.get? i = some s' →
      s'.Sublist s ∧ ∀ c : Label, y.get? i = some c → mget top c = none → s' = s := by
  have h := remove_aux top x y hlen
  exact h

/-- Witness for C10 at the concrete input `x = [{a:1, b:2}]`, `y = [A]`,
`top = {A: [a]}`. -/
theorem C10_witness :
    (([[("a", 1), ("b", 2)]] : List Sample).length = (["A"] : List Label).length ∧
      (∀ p ∈ ([("A", ["a"])] : List (Label × List Term)),
        List.Sorted (fun a b => strLeB a b = true) p.2)) ∧
    ((remove_unimportant_words [[("a", 1), ("b", 2)]] ["A"] [("A", ["a"])]).2 = ["A"] ∧
      (remove_unimportant_words [[("a", 1), ("b", 2)]] ["A"] [("A", ["a"])]).1.length =
        ([[("a", 1), ("b", 2)]] : List Sample).length ∧
      ∀ (i : Nat) (s s' : Sample),
        ([[("a", 1), ("b", 2)]] : List Sample).get? i = some s →
        (remove_unimportant_words [[("a", 1), ("b", 2)]] ["A"] [("A", ["a"])]).1.get? i =
          some s' →
        s'.Sublist s ∧ ∀ c : Label, (["A"] : List Label).get? i = some c →
          mget [("A", ["a"])] c = none → s' = s) :=
  ⟨⟨rfl, by
    intro p hp
    simp only [List.mem_singleton] at hp
    subst hp
    simp [List.Sorted]⟩,
    C10_remove_unimportant_frame [[("a", 1), ("b", 2)]] ["A"] [("A", ["a"])] rfl
      (by
        intro p hp
        simp only [List.mem_singleton] at hp
        subst hp
        simp [List.Sorted])⟩

/-- The pair fold of `precision<NoAvg>` splits into two independent folds. -/
theorem prec_fold_split (l : List (Label × Label)) :
    ∀ (a1 : List (Label × ℚ)) (a2 : List (Label × Nat)),
    l.foldl (fun (pr : List (Label × ℚ) × List (Label × Nat)) q =>
        (if q.1 = q.2 then maddF pr.1 q.2 1 else pr.1, maddN pr.2 q.2 1)) (a1, a2) =
      (l.foldl (fun m q => if q.1 = q.2 then maddF m q.2 1 else m) a1,
        l.foldl (fun m q => maddN m q.2 1) a2) := by
  induction l with
  | nil => intro a1 a2; rfl
  | cons q t ih =>
    intro a1 a2
    rw [List.foldl_cons, List.foldl_cons, List.foldl_cons]
    exact ih _ _

/-- Content of the predicted-count map. -/
theorem mget_foldl_predCount (l : List (Label × Label)) (c : Label) :
    ∀ (a : List (Label × Nat)),
    mget (l.foldl (fun m q => maddN m q.2 1) a) c =
      if 0 < predCount l c ∨ (mget a c).isSome
      then some ((mget a c).getD 0 + predCount l c) else none := by
  induction l with
  | nil =>
    intro a
    cases h : mget a c <;> simp [predCount, h]
  | cons q t ih =>
    intro a
    rw [List.foldl_cons, ih]
    have hpc : predCount ((q : Label × Label) :: t) c =
        (if q.2 = c then 1 else 0) + predCount t c := by
      by_cases hq : q.2 = c <;> simp [predCount, List.filter_cons, hq] <;> omega
    rw [mget_maddN, hpc]
    by_cases hq : q.2 = c
    · cases h : mget a c <;> simp [hq, h] <;> omega
    · simp [hq]

/-- Content of the diagonal map. -/
theorem mget_foldl_diagCount (l : List (Label × Label)) (c : Label) :
    ∀ (a : List (Label × ℚ)),
    mget (l.foldl (fun m q => if q.1 = q.2 then maddF m q.2 1 else m) a) c =
      if 0 < diagCount l c ∨ (mget a c).isSome
      then some ((mget a c).getD 0 + (diagCount l c : ℚ)) else none := by
  induction l with
  | nil =>
    intro a
    cases h : mget a c <;> simp [diagCount, h]
  | cons q t ih =>
    intro a
    rw [List.foldl_cons, ih]
    have hdc : diagCount ((q : Label × Label) :: t) c =
        (if q.1 = q.2 ∧ q.2 = c then 1 else 0) + diagCount t c := by
      unfold diagCount
      rw [List.filter_cons]
      by_cases h12 : q.1 = q.2 ∧ q.2 = c
      · rw [if_pos (by simp [h12.1, h12.2]), if_pos h12, List.length_cons]
        omega
      · have hb : ¬((decide (q.1 = q.2) && decide (q.2 = c)) = true) := by
          simp only [Bool.and_eq_true, decide_eq_true_eq]
          exact h12
        rw [if_neg hb, if_neg h12]
        omega
    by_cases h1 : q.1 = q.2
    · rw [if_pos h1]
      have hstep : mget (maddF a q.2 1) c =
          if q.2 = c then some ((mget a c).getD 0 + 1) else mget a c := by
        unfold maddF
        rw [mget_mset]
        by_cases h2 : q.2 = c
        · rw [if_pos h2, if_pos h2, h2]
        · rw [if_neg h2, if_neg h2]
      rw [hstep, hdc]
      by_cases h2 : q.2 = c
      · rw [if_pos h2, if_pos (show q.1 = q.2 ∧ q.2 = c from ⟨h1, h2⟩)]
        rw [if_pos (show 0 < diagCount t c ∨
            (some ((mget a c).getD 0 + 1)).isSome = true from Or.inr rfl)]
        rw [if_pos (show 0 < 1 + diagCount t c ∨ (mget a c).isSome = true
            from Or.inl (by omega))]
        simp only [Option.getD_some]
        congr 1
        push_cast
        ring
      · rw [if_neg h2, if_neg (show ¬(q.1 = q.2 ∧ q.2 = c) from fun hh => h2 hh.2)]
        simp
    · rw [if_neg h1, hdc,
        if_neg (show ¬(q.1 = q.2 ∧ q.2 = c) from fun hh => h1 hh.1)]
      simp

theorem diag_le_pred (l : List (Label × Label)) (c : Label) :
    diagCount l c ≤ predCount l c := by
  induction l with
  | nil => exact Nat.le_refl 0
  | cons q t ih =>
    unfold diagCount predCount at ih ⊢
    rw [List.filter_cons, List.filter_cons]
    by_cases h1 : (decide (q.1 = q.2) && decide (q.2 = c)) = true
    · have h2 : decide (q.2 = c) = true := by
        simp only [Bool.and_eq_true] at h1
        exact h1.2
      rw [if_pos h1, if_pos h2, List.length_cons, List.length_cons]
      omega
    · rw [if_neg h1]
      by_cases h2 : decide (q.2 = c) = true
      · rw [if_pos h2, List.length_cons]
        omega
      · rw [if_neg h2]
        exact ih

/-- Lookup in a value-mapped association list. -/
theorem mget_map_entry {β γ : Type} (m : List (Label × β)) (g : Label × β → γ)
    (k : Label) :
    mget (m.map fun p => (p.1, g p)) k = (mget m k).map fun v => g (k, v) := by
  induction m with
  | nil => rfl
  | cons p t ih =>
    obtain ⟨p1, p2⟩ := p
    by_cases hp : p1 = k
    · subst hp
      simp [mget]
    · simp [mget, hp, ih]

/-- C6 counterexample: with `y_true = [A]`, `y_pred = [B]` the per-class
precision map is empty — class `A`, which is never predicted, is silently
dropped from the result rather than surfaced as a division-by-zero /
NaN marker. -/
theorem C6_counterexample :
    precisionNoAvg ["A"] ["B"] = [] ∧
    predCount ((["A"] : List Label).zip ["B"]) "A" = 0 := ⟨rfl, rfl⟩

/-- C6 (amended): `precision<NoAvg>` maps every class `c` with at least
one correct prediction (`TP_c ≥ 1`) to an entry storing exactly
`TP_c / (#predicted as c)` — the divisor is then positive, so no division
by zero is ever performed — while a class with no correct prediction, and
in particular a class that is never predicted, has no entry in the result
(it is silently dropped, with no NaN/undefined marker). -/
theorem C6_per_class_precision (y_true y_pred : List Label)
    (hlen : y_true.length = y_pred.length) (c : Label) :
    (0 < diagCount (y_true.zip y_pred) c →
      0 < predCount (y_true.zip y_pred) c ∧
      mget (precisionNoAvg y_true y_pred) c =
        some ((diagCount (y_true.zip y_pred) c : ℚ) /
          (predCount (y_true.zip y_pred) c : ℚ))) ∧
    (diagCount (y_true.zip y_pred) c = 0 →
      mget (precisionNoAvg y_true y_pred) c = none) ∧
    (predCount (y_true.zip y_pred) c = 0 →
      mget (precisionNoAvg y_true y_pred) c = none) := by
  have hres : precisionNoAvg y_true y_pred =
      ((y_true.zip y_pred).foldl
          (fun m q => if q.1 = q.2 then maddF m q.2 1 else m) []).map
        fun p => (p.1, p.2 / ((mget ((y_true.zip y_pred).foldl
          (fun m q => maddN m q.2 1) []) p.1).getD 0 : ℚ)) := by
    unfold precisionNoAvg
    rw [prec_fold_split]
  have hdiag := mget_foldl_diagCount (y_true.zip y_pred) c []
  have hpred := mget_foldl_predCount (y_true.zip y_pred) c []
  rw [show mget ([] : List (Label × ℚ)) c = none from rfl] at hdiag
  rw [show mget ([] : List (Label × Nat)) c = none from rfl] at hpred
  simp only [Option.isSome_none, Bool.false_eq_true, or_false, Option.getD_none,
    zero_add] at hdiag hpred
  refine ⟨?_, ?_, ?_⟩
  · intro hd
    have hp : 0 < predCount (y_true.zip y_pred) c :=
      Nat.lt_of_lt_of_le hd (diag_le_pred _ c)
    refine ⟨hp, ?_⟩
    rw [hres, mget_map_entry, hdiag, if_pos hd]
    simp only [Option.map_some]
    rw [hpred, if_pos hp]
    simp only [Option.getD_some]
    rfl
  · intro hd0
    rw [hres, mget_map_entry, hdiag,
      if_neg (show ¬(0 < diagCount (y_true.zip y_pred) c) by omega)]
    rfl
  · intro hp0
    have hd0 : diagCount (y_true.zip y_pred) c = 0 := by
      have h := diag_le_pred (y_true.zip y_pred) c
      omega
    rw [hres, mget_map_entry, hdiag,
      if_neg (show ¬(0 < diagCount (y_true.zip y_pred) c) by omega)]
    rfl

/-- Witness for C6 at `y_true = y_pred = [A]`: class `A` has one correct
prediction and the result map does hold the populated entry
`TP_A / pred_A = 1/1` for it. -/
theorem C6_witness :
    ((["A"] : List Label).length = (["A"] : List Label).length ∧
      0 < diagCount ((["A"] : List Label).zip ["A"]) "A") ∧
    (0 < predCount ((["A"] : List Label).zip ["A"]) "A" ∧
      mget (precisionNoAvg ["A"] ["A"]) "A" =
        some ((diagCount ((["A"] : List Label).zip ["A"]) "A" : ℚ) /
          (predCount ((["A"] : List Label).zip ["A"]) "A" : ℚ))) :=
  ⟨⟨rfl, by decide⟩,
    (C6_per_class_precision ["A"] ["A"] rfl "A").1 (by decide)⟩

/-- C7 counterexample: with `y_true = [A]`, `y_pred = [B]` (no correct
prediction), micro precision and micro recall are `0` but micro F1 is the
non-finite `0/0` (`none`), so the three are not numerically identical. -/
theorem C7_counterexample :
    precisionMicro ["A"] ["B"] = 0 ∧ recallMicro ["A"] ["B"] = 0 ∧
    f_scoreMicro ["A"] ["B"] = none := by
  have htp : tpMicro ["A"] ["B"] = 0 := rfl
  have htpr : tpMicroRec ["A"] ["B"] = 0 := rfl
  have hp : precisionMicro ["A"] ["B"] = 0 := by
    unfold precisionMicro
    rw [htp]
    norm_num
  have hr : recallMicro ["A"] ["B"] = 0 := by
    unfold recallMicro
    rw [htpr]
    norm_num
  refine ⟨hp, hr, ?_⟩
  unfold f_scoreMicro f_beta
  rw [hp, hr]
  norm_num

/-- C7 (amended): for equal-length, non-empty inputs with at least one
correct prediction, micro precision, micro recall and micro F1 are all
equal to overall accuracy; when no prediction is correct, precision and
recall are `0` while F1 is the non-finite `0/0`. -/
theorem C7_micro_identity (y_true y_pred : List Label)
    (hlen : y_true.length = y_pred.length) (hne : y_true ≠ [])
    (htp : 0 < tpMicro y_true y_pred) :
    precisionMicro y_true y_pred = accuracy y_true y_pred ∧
    recallMicro y_true y_pred = accuracy y_true y_pred ∧
    f_scoreMicro y_true y_pred = some (accuracy y_true y_pred) := by
  have hacc : precisionMicro y_true y_pred = accuracy y_true y_pred := by
    unfold precisionMicro accuracy tpMicro
    rw [List.countP_eq_length_filter]
  have hrec : recallMicro y_true y_pred = precisionMicro y_true y_pred := rfl
  have hN : (0 : ℚ) < (y_true.length : ℚ) := by
    have h0 : 0 < y_true.length := List.length_pos.mpr hne
    exact_mod_cast h0
  have hpos : 0 < precisionMicro y_true y_pred := by
    unfold precisionMicro
    apply div_pos _ hN
    exact_mod_cast htp
  refine ⟨hacc, by rw [hrec, hacc], ?_⟩
  unfold f_scoreMicro f_beta
  rw [if_neg (by rw [hrec]; nlinarith [hpos])]
  rw [hrec, ← hacc]
  congr 1
  have hne0 : precisionMicro y_true y_pred ≠ 0 := ne_of_gt hpos
  field_simp
  ring

/-- Witness for C7 at `y_true = y_pred = [A]`. -/
theorem C7_witness :
    ((["A"] : List Label).length = (["A"] : List Label).length ∧
      (["A"] : List Label) ≠ [] ∧ 0 < tpMicro ["A"] ["A"]) ∧
    (precisionMicro ["A"] ["A"] = accuracy ["A"] ["A"] ∧
      recallMicro ["A"] ["A"] = accuracy ["A"] ["A"] ∧
      f_scoreMicro ["A"] ["A"] = some (accuracy ["A"] ["A"])) :=
  ⟨⟨rfl, by simp, by decide⟩,
    C7_micro_identity ["A"] ["A"] rfl (by simp) (by decide)⟩

end NB
